import Mathlib

/-!
# Verification of the `file_view_pool` of libtorrent-multiface

The repository ships the declaration of the pool
(`src/include/libtorrent/aux_/file_view_pool.hpp`): the data model
(`file_entry`, the triple-indexed `files_container`, `wait_open_entry`,
`opening_file_entry`, `m_opening_files`, `m_size`) and the operation
signatures (`open_file`, `release`, `resize`, `close_oldest`,
`flush_next_file`, `record_file_write`, `get_status`).  The operation
bodies (`file_view_pool.cpp`) are not part of the repository snapshot, so
each operation below is modelled from the specification (`spec.md` §4–§5),
faithful to its step-by-step algorithms, on top of the data model taken
from the header.

The pool is lock-based: a single primary mutex serializes every mutation
of `FilesIndex` and of the opening registry.  We therefore embed each
lock-protected critical section as one atomic transition on a `Pool`
state, and model a concurrent execution as an interleaving of such
transitions (`Reach`).  `open_file` splits into the two critical sections
the spec describes: `openFileStart` (lookup / attach-as-waiter / register
an opening entry, spec §4.1 steps 1–3) and `openFileFinish` (post-open
insertion, eviction, waiter notification, spec §4.1 step 4); the OS open
itself happens between them, outside the lock.
-/

namespace FileViewPool

/-- From the header: `storage_index_t` is an opaque dense integer id. -/
abbrev StorageId := Nat

/-- From the header: `file_index_t` is an opaque dense integer id. -/
abbrev FileIndex := Nat

/-- From the header: `using file_id = std::pair<storage_index_t, file_index_t>`. -/
abbrev FileId := StorageId × FileIndex

/-- From the header / spec §3: `open_mode_t` is a bitset; the only bit that
participates in pool decisions is `write`.  The remaining bits (random
access, sparse, no-cache, …) are carried opaquely in `rest` and merely
forwarded to mapping creation. -/
structure OpenMode where
  write : Bool
  rest : Nat
deriving DecidableEq, Repr

/-- Modelled from the spec: mode compatibility ("covers").  A cached or
in-flight mode satisfies a request unless the request has the `write` bit
and the cached mode lacks it (spec §4.1 step 1 and step 2). -/
def mode_covers (cached requested : OpenMode) : Bool :=
  !requested.write || cached.write

/-- From the header: `file_entry` — key, shared mapping, last-use
timestamp, dirty-bytes counter and open mode.  The mapping is identified
by the numeric identity of the `file_mapping` object; timestamps are a
monotone counter. -/
structure FileEntry where
  key : FileId
  mapping : Nat
  last_use : Nat
  dirty_bytes : Nat
  mode : OpenMode
deriving DecidableEq, Repr

/-- From the header: `opening_file_entry` — the key being opened, the mode
of the in-flight open, and the intrusive list of waiters (represented by
their waiter identities). -/
structure OpeningFileEntry where
  file_key : FileId
  mode : OpenMode
  waiters : List Nat
deriving DecidableEq, Repr

/-- Result of an OS open delivered to the caller and to each
`wait_open_entry`: either the shared mapping identity or the storage
error code (`wait_open_entry.mapping` / `wait_open_entry.error`). -/
inductive OpenResult where
  | ok (mapping : Nat)
  | fail (err : Nat)
deriving DecidableEq, Repr

/-- What one critical section of `open_file` decides for the calling
thread: a cache hit returning the cached mapping, attachment as a waiter
(with the waiter record's identity), or the duty to perform the OS open. -/
inductive StartResult where
  | hit (mapping : Nat)
  | wait (wid : Nat)
  | doOpen
deriving DecidableEq, Repr

/-- The pool state visible at a quiescent point (primary mutex not held):
the size limit `m_size`, the `files_container` (kept in LRU order, head =
least recently used; the by-key and by-dirty-bytes indexes are derived
views of this list), the `m_opening_files` registry, the published result
slot of every notified waiter record, and bookkeeping counters — the next
fresh mapping identity, the next fresh waiter identity, the number of OS
opens performed so far, and the monotone clock backing `last_use`. -/
structure Pool where
  m_size : Nat
  files : List FileEntry
  opening_files : List OpeningFileEntry
  waiter_results : List (Nat × OpenResult)
  next_mapping : Nat
  next_waiter : Nat
  os_open_count : Nat
  clock : Nat
deriving DecidableEq, Repr

/-- From the header: `explicit file_view_pool(int size = 40)` — an empty
pool with the given size limit. -/
def initPool (size : Nat) : Pool :=
  { m_size := size, files := [], opening_files := [], waiter_results := []
  , next_mapping := 0, next_waiter := 0, os_open_count := 0, clock := 0 }

/-- Modelled from the spec (§4.2, missing `file_view_pool.cpp`): overflow
eviction — remove the least-recently-used entry (list head) until the
container holds at most `limit` entries. -/
def evict_excess (limit : Nat) : List FileEntry → List FileEntry
  | [] => []
  | e :: rest => if (e :: rest).length ≤ limit then e :: rest else evict_excess limit rest

/-- Modelled from the spec (§4.1 step 4, missing `file_view_pool.cpp`):
insertion into the `ordered_unique`-by-key `files_container`: a no-op when
the key is already present, otherwise the entry is appended at the MRU
end of the sequenced index. -/
def insertEntry (files : List FileEntry) (e : FileEntry) : List FileEntry :=
  if files.any (fun x => x.key = e.key) then files else files ++ [e]

/-- Modelled from the spec (§4.3, missing `file_view_pool.cpp`): linear
lookup of the opening registry; the waiter id is appended to the waiter
list of the first entry for this key whose in-flight mode covers the
request.  `none` when no compatible in-flight open exists. -/
def attachWaiter (k : FileId) (m : OpenMode) (wid : Nat) :
    List OpeningFileEntry → Option (List OpeningFileEntry)
  | [] => none
  | o :: rest =>
    if o.file_key = k ∧ mode_covers o.mode m then
      some ({ o with waiters := o.waiters ++ [wid] } :: rest)
    else
      (attachWaiter k m wid rest).map (o :: ·)

/-- Modelled from the spec (§4.1 step 4, missing `file_view_pool.cpp`):
the opener removes its own registry entry — the first entry carrying its
key and mode — and takes its waiter list; if no such entry exists the
registry is unchanged and no waiters are taken. -/
def removeOpening (k : FileId) (m : OpenMode) :
    List OpeningFileEntry → List OpeningFileEntry × List Nat
  | [] => ([], [])
  | o :: rest =>
    if o.file_key = k ∧ o.mode = m then
      (rest, o.waiters)
    else
      let (rest', ws) := removeOpening k m rest
      (o :: rest', ws)

/-- Modelled from the spec (§4.1 steps 2–3, missing `file_view_pool.cpp`):
the miss path of `open_file`'s first critical section.  Either attach to a
compatible in-flight open as a waiter, or register a fresh
`opening_file_entry` and return the duty to open. -/
def startMiss (p : Pool) (k : FileId) (m : OpenMode) : Pool × StartResult :=
  match attachWaiter k m p.next_waiter p.opening_files with
  | some ofs => ({ p with opening_files := ofs, next_waiter := p.next_waiter + 1 },
      .wait p.next_waiter)
  | none => ({ p with opening_files := ⟨k, m, []⟩ :: p.opening_files }, .doOpen)

/-- Modelled from the spec (§4.1 steps 1–3, missing `file_view_pool.cpp`):
the first critical section of `open_file`.  On a hit with a covering mode,
refresh `last_use` and move the entry to the MRU end; on a hit with an
insufficient mode (cached mode lacks `write`, request has it), remove the
entry and fall through to the miss path; otherwise the miss path. -/
def openFileStart (p : Pool) (k : FileId) (m : OpenMode) : Pool × StartResult :=
  match p.files.find? (fun e => e.key = k) with
  | some e =>
    if mode_covers e.mode m then
      ({ p with
          files := p.files.filter (fun x => x.key ≠ k) ++ [{ e with last_use := p.clock }]
        , clock := p.clock + 1 }, .hit e.mapping)
    else
      startMiss { p with files := p.files.filter (fun x => x.key ≠ k) } k m
  | none => startMiss p k m

/-- Modelled from the spec (§4.1 step 4, missing `file_view_pool.cpp`):
the second critical section of `open_file`, entered by the opener after
the OS open (performed outside the lock; `os_open_count` counts it).
The opening entry is removed under the same lock acquisition.  On
success a fresh `file_entry` is constructed with the new mapping, zero
dirty bytes and the current clock, inserted at the MRU end and the LRU
entries evicted while over the limit.  In both cases every waiter of the
removed entry has its result slot populated with the opener's exact
result before being signalled. -/
def openFileFinish (p : Pool) (k : FileId) (m : OpenMode) (osOk : Bool) (err : Nat) :
    Pool × OpenResult :=
  let remaining := (removeOpening k m p.opening_files).1
  let ws := (removeOpening k m p.opening_files).2
  if osOk then
    let mapId := p.next_mapping
    let entry : FileEntry := ⟨k, mapId, p.clock, 0, m⟩
    ({ p with
        opening_files := remaining
      , files := evict_excess p.m_size (insertEntry p.files entry)
      , waiter_results := ws.map (fun w => (w, OpenResult.ok mapId)) ++ p.waiter_results
      , next_mapping := p.next_mapping + 1
      , os_open_count := p.os_open_count + 1
      , clock := p.clock + 1 }, .ok mapId)
  else
    ({ p with
        opening_files := remaining
      , waiter_results := ws.map (fun w => (w, OpenResult.fail err)) ++ p.waiter_results
      , os_open_count := p.os_open_count + 1
      , clock := p.clock + 1 }, .fail err)

/-- Outcome of a whole sequential `open_file` call. -/
inductive OpenOutcome where
  | view (mapping : Nat)
  | fail (err : Nat)
  | wouldBlock (wid : Nat)
deriving DecidableEq, Repr

/-- Modelled from the spec (§4.1, missing `file_view_pool.cpp`): a whole
`open_file` call as seen by one thread with no interleaving: the first
critical section, then — when this thread is the opener — the OS open
(whose outcome `osOk`/`err` is the platform's) and the second critical
section.  A thread that attaches as a waiter would block. -/
def open_file (p : Pool) (k : FileId) (m : OpenMode) (osOk : Bool) (err : Nat) :
    Pool × OpenOutcome :=
  match openFileStart p k m with
  | (p', .hit mp) => (p', .view mp)
  | (p', .wait wid) => (p', .wouldBlock wid)
  | (p', .doOpen) =>
    match openFileFinish p' k m osOk err with
    | (p'', .ok mp) => (p'', .view mp)
    | (p'', .fail e) => (p'', .fail e)

/-- Modelled from the spec (§4.1, missing `file_view_pool.cpp`):
`release()` — remove every entry (their destruction happens outside the
lock via the deferred-destruction twin container, which holds no entries
at any quiescent point and is not represented). -/
def release (p : Pool) : Pool :=
  { p with files := [] }

/-- Modelled from the spec (§4.1, missing `file_view_pool.cpp`):
`release(storage)` — remove every entry of the given storage; the opening
registry is not affected. -/
def releaseStorage (p : Pool) (st : StorageId) : Pool :=
  { p with files := p.files.filter (fun e => e.key.1 ≠ st) }

/-- Modelled from the spec (§4.1, missing `file_view_pool.cpp`):
`release(storage, file_index)` — remove the entry with that key, if any. -/
def releaseFile (p : Pool) (st : StorageId) (fi : FileIndex) : Pool :=
  { p with files := p.files.filter (fun e => e.key ≠ (st, fi)) }

/-- Modelled from the spec (§4.1, missing `file_view_pool.cpp`):
`resize(n)` — update `m_size` and evict from the LRU end until within the
new limit. -/
def resize (p : Pool) (n : Nat) : Pool :=
  { p with m_size := n, files := evict_excess n p.files }

/-- Modelled from the spec (§4.1, missing `file_view_pool.cpp`):
`close_oldest()` — remove the LRU entry, if any. -/
def close_oldest (p : Pool) : Pool :=
  { p with files := p.files.drop 1 }

/-- The platform page size consumed by `record_file_write` (spec §6). -/
def page_size : Nat := 4096

/-- Modelled from the spec (§4.1, missing `file_view_pool.cpp`):
`record_file_write(storage, file_index, pages)` — if the entry exists,
increase its `dirty_bytes` by `pages × page_size`; no-op if absent. -/
def record_file_write (p : Pool) (st : StorageId) (fi : FileIndex) (pages : Nat) : Pool :=
  { p with files := p.files.map (fun e =>
      if e.key = (st, fi) then { e with dirty_bytes := e.dirty_bytes + pages * page_size }
      else e) }

/-- Modelled from the spec (§4.1, missing `file_view_pool.cpp`): the
selection step of `flush_next_file` over the dirty-bytes index — an entry
with maximal `dirty_bytes` among those with a strictly positive counter,
`none` when no entry is dirty. -/
def flushStep (acc : Option FileEntry) (e : FileEntry) : Option FileEntry :=
  match acc with
  | none => if 0 < e.dirty_bytes then some e else none
  | some b => if b.dirty_bytes < e.dirty_bytes then some e else some b

/-- Modelled from the spec (§4.1, missing `file_view_pool.cpp`): the
selection over the dirty-bytes index as a fold of `flushStep`. -/
def flush_candidate (files : List FileEntry) : Option FileEntry :=
  files.foldl flushStep none

/-- Modelled from the spec (§4.1, missing `file_view_pool.cpp`):
`flush_next_file()` — select the entry with the highest positive
`dirty_bytes`; outside the lock flush its whole range (outcome `flushOk`
is the platform's); on success reset the entry's counter to 0 (looked up
again by key, skipped if evicted meanwhile), on failure leave it
unchanged.  Returns the flushed key, `none` when nothing was dirty. -/
def flush_next_file (p : Pool) (flushOk : Bool) : Pool × Option FileId :=
  match flush_candidate p.files with
  | none => (p, none)
  | some e =>
    if flushOk then
      ({ p with files := p.files.map (fun x =>
          if x.key = e.key then { x with dirty_bytes := 0 } else x) }, some e.key)
    else
      (p, some e.key)

/-- From the header: `open_file_state` — the introspection record
`{file_index, open_mode}` returned by `get_status`. -/
structure OpenFileState where
  file_index : FileIndex
  open_mode : OpenMode
deriving DecidableEq, Repr

/-- Modelled from the spec (§4.1, missing `file_view_pool.cpp`): the
snapshot loop of `get_status` — one record per cached entry of the given
storage, in container order. -/
def statusSnapshot (st : StorageId) : List FileEntry → List OpenFileState
  | [] => []
  | e :: rest =>
    if e.key.1 = st then ⟨e.key.2, e.mode⟩ :: statusSnapshot st rest
    else statusSnapshot st rest

/-- Modelled from the spec (§4.1, missing `file_view_pool.cpp`):
`get_status(storage)` — a `const` member: it returns the snapshot together
with the (unmodified) pool state. -/
def get_status (p : Pool) (st : StorageId) : Pool × List OpenFileState :=
  (p, statusSnapshot st p.files)

/-- A sequence of `open_file` first critical sections for one key issued
by late-coming threads, each executed as one lock-protected step; returns
the final pool and what each call decided. -/
def startCalls (p : Pool) (k : FileId) : List OpenMode → Pool × List StartResult
  | [] => (p, [])
  | m :: rest =>
    let p' := (openFileStart p k m).1
    ((startCalls p' k rest).1, (openFileStart p k m).2 :: (startCalls p' k rest).2)

/-- The keys currently registered in the opening registry. -/
def openKeys (l : List OpeningFileEntry) : List FileId :=
  l.map (fun o => o.file_key)

/-- The quiescent-point invariant of spec §3 items 1–2: keys are unique
across the `files_container` and the number of cached entries is within
the size limit. -/
def PoolInv (p : Pool) : Prop :=
  p.files.Pairwise (fun a b => a.key ≠ b.key) ∧ p.files.length ≤ p.m_size

/-- The quiescent-point invariant of spec §3 item 3 (together with
uniqueness of registry keys, which it needs inductively): no key is
simultaneously cached and being opened. -/
def NPInv (p : Pool) : Prop :=
  (∀ e ∈ p.files, e.key ∉ openKeys p.opening_files) ∧ (openKeys p.opening_files).Nodup

/-- The quiescent points reachable by interleaving the pool's
lock-protected critical sections, starting from a freshly constructed
pool.  `finish` may only fire for an opener whose registry entry is
present, i.e. after its `start` registered it. -/
inductive Reach : Pool → Prop where
  | init (size : Nat) : Reach (initPool size)
  | start (p : Pool) (k : FileId) (m : OpenMode) :
      Reach p → Reach (openFileStart p k m).1
  | finish (p : Pool) (k : FileId) (m : OpenMode) (osOk : Bool) (err : Nat) :
      Reach p → (∃ o ∈ p.opening_files, o.file_key = k ∧ o.mode = m) →
      Reach (openFileFinish p k m osOk err).1
  | releaseAll (p : Pool) : Reach p → Reach (release p)
  | releaseSt (p : Pool) (st : StorageId) : Reach p → Reach (releaseStorage p st)
  | releaseOne (p : Pool) (st : StorageId) (fi : FileIndex) :
      Reach p → Reach (releaseFile p st fi)
  | doResize (p : Pool) (n : Nat) : Reach p → Reach (resize p n)
  | closeOld (p : Pool) : Reach p → Reach (close_oldest p)
  | record (p : Pool) (st : StorageId) (fi : FileIndex) (pages : Nat) :
      Reach p → Reach (record_file_write p st fi pages)
  | flush (p : Pool) (ok : Bool) : Reach p → Reach (flush_next_file p ok).1
  | status (p : Pool) (st : StorageId) : Reach p → Reach (get_status p st).1

/-- The same quiescent points, restricted to executions that never start a
second opening entry for a key that already has one in flight (i.e. the
parallel wider-mode open of spec §4.1 step 2 never fires). -/
inductive ReachNP : Pool → Prop where
  | init (size : Nat) : ReachNP (initPool size)
  | start (p : Pool) (k : FileId) (m : OpenMode) :
      ReachNP p →
      ((openFileStart p k m).2 = StartResult.doOpen → ∀ o ∈ p.opening_files, o.file_key ≠ k) →
      ReachNP (openFileStart p k m).1
  | finish (p : Pool) (k : FileId) (m : OpenMode) (osOk : Bool) (err : Nat) :
      ReachNP p → (∃ o ∈ p.opening_files, o.file_key = k ∧ o.mode = m) →
      ReachNP (openFileFinish p k m osOk err).1
  | releaseAll (p : Pool) : ReachNP p → ReachNP (release p)
  | releaseSt (p : Pool) (st : StorageId) : ReachNP p → ReachNP (releaseStorage p st)
  | releaseOne (p : Pool) (st : StorageId) (fi : FileIndex) :
      ReachNP p → ReachNP (releaseFile p st fi)
  | doResize (p : Pool) (n : Nat) : ReachNP p → ReachNP (resize p n)
  | closeOld (p : Pool) : ReachNP p → ReachNP (close_oldest p)
  | record (p : Pool) (st : StorageId) (fi : FileIndex) (pages : Nat) :
      ReachNP p → ReachNP (record_file_write p st fi pages)
  | flush (p : Pool) (ok : Bool) : ReachNP p → ReachNP (flush_next_file p ok).1
  | status (p : Pool) (st : StorageId) : ReachNP p → ReachNP (get_status p st).1

/-- Read-only open mode. -/
def modeRead : OpenMode := ⟨false, 0⟩

/-- Read-write open mode. -/
def modeWrite : OpenMode := ⟨true, 0⟩

/-- Interleaving exercising the parallel wider-mode open: thread A starts
opening `(0,0)` read-only. -/
def parPool1 : Pool := (openFileStart (initPool 40) (0, 0) modeRead).1

/-- Thread B, finding the in-flight read-only open too narrow for its
read-write request, starts a second opening entry for `(0,0)`. -/
def parPool2 : Pool := (openFileStart parPool1 (0, 0) modeWrite).1

/-- Thread A's read-only open succeeds and is inserted into the cache
while thread B's opening entry is still registered. -/
def parPool3 : Pool := (openFileFinish parPool2 (0, 0) modeRead true 0).1

/-- A no-parallel interleaving: one opening entry for `(0,0)` registered
on a fresh pool. -/
def npPool1 : Pool := (openFileStart (initPool 40) (0, 0) modeWrite).1

/-- Completion of the open registered in `npPool1`: one cached entry,
empty registry. -/
def npPool2 : Pool := (openFileFinish npPool1 (0, 0) modeWrite true 0).1

/-- A pool holding a single clean read-write entry for `(0,0)`, used to
evaluate the theorems on a concrete state. -/
def onePool : Pool :=
  { initPool 40 with files := [⟨(0, 0), 0, 0, 0, modeWrite⟩], next_mapping := 1 }

/-- A pool holding a single read-only entry for `(0,0)`, for the
mode-upgrade scenario. -/
def readPool : Pool :=
  { initPool 40 with files := [⟨(0, 0), 0, 0, 0, modeRead⟩], next_mapping := 1 }

/-- A pool with one in-flight open for `(2,3)` carrying one waiter, about
to fail. -/
def failPool : Pool :=
  { initPool 40 with opening_files := [⟨(2, 3), modeRead, [11]⟩] }

/-- A pool of size limit 0 with one in-flight open carrying a waiter. -/
def zeroPool : Pool :=
  { initPool 0 with opening_files := [⟨(0, 0), modeRead, [3]⟩] }

/-- A pool with three dirty entries (10, 50 and 20 dirty pages' worth of
bytes), matching the spec's flush-selection scenario. -/
def dirtyPool : Pool :=
  { initPool 40 with files :=
      [⟨(0, 0), 0, 0, 10, modeWrite⟩, ⟨(0, 1), 1, 1, 50, modeWrite⟩,
       ⟨(0, 2), 2, 2, 20, modeWrite⟩] }

/-! ## Helper lemmas -/

theorem length_filter_lt_of_mem {α : Type} (p : α → Bool) (l : List α) (x : α)
    (hx : x ∈ l) (hpx : ¬ p x = true) : (l.filter p).length < l.length := by
  induction l with
  | nil => cases hx
  | cons a t ih =>
    rcases List.mem_cons.mp hx with h | h
    · subst h
      rw [List.filter_cons, if_neg hpx]
      have := List.length_filter_le p t
      simp only [List.length_cons]
      omega
    · by_cases hpa : p a
      · simp only [List.filter_cons, hpa, if_pos, List.length_cons]
        exact Nat.succ_lt_succ (ih h)
      · simp only [List.filter_cons, hpa]
        simp only [Bool.false_eq_true, if_false, List.length_cons]
        exact Nat.lt_succ_of_lt (ih h)

theorem lookup_map_append (r : OpenResult) (tail : List (Nat × OpenResult)) :
    ∀ (l : List Nat) (n : Nat), n ∈ l →
    ((l.map (fun w => (w, r))) ++ tail).lookup n = some r := by
  intro l
  induction l with
  | nil => intro n h; cases h
  | cons a t ih =>
    intro n h
    rcases List.mem_cons.mp h with h' | h'
    · subst h'
      simp [List.lookup]
    · by_cases hna : n = a
      · subst hna; simp [List.lookup]
      · simp only [List.map_cons, List.cons_append, List.lookup]
        have : (n == a) = false := by simp [hna]
        rw [this]
        exact ih n h'

theorem evict_excess_length (limit : Nat) :
    ∀ l : List FileEntry, (evict_excess limit l).length ≤ limit := by
  intro l
  induction l with
  | nil => simp [evict_excess]
  | cons e rest ih =>
    rw [evict_excess]
    split
    · assumption
    · exact ih

theorem evict_excess_sublist (limit : Nat) :
    ∀ l : List FileEntry, (evict_excess limit l).Sublist l := by
  intro l
  induction l with
  | nil => simp [evict_excess]
  | cons e rest ih =>
    rw [evict_excess]
    split
    · exact List.Sublist.refl _
    · exact ih.cons e

theorem evict_excess_of_le (limit : Nat) (l : List FileEntry) (h : l.length ≤ limit) :
    evict_excess limit l = l := by
  cases l with
  | nil => rfl
  | cons e rest => rw [evict_excess, if_pos h]

theorem evict_excess_zero (l : List FileEntry) : evict_excess 0 l = [] :=
  List.eq_nil_of_length_eq_zero (Nat.le_zero.mp (evict_excess_length 0 l))

theorem insertEntry_length (l : List FileEntry) (e : FileEntry) :
    (insertEntry l e).length ≤ l.length + 1 := by
  rw [insertEntry]
  split
  · exact Nat.le_succ _
  · simp

theorem mem_insertEntry (l : List FileEntry) (e x : FileEntry) (h : x ∈ insertEntry l e) :
    x ∈ l ∨ x = e := by
  rw [insertEntry] at h
  split at h
  · exact Or.inl h
  · rcases List.mem_append.mp h with h' | h'
    · exact Or.inl h'
    · exact Or.inr (List.mem_singleton.mp h')

theorem insertEntry_pairwise (l : List FileEntry) (e : FileEntry)
    (h : l.Pairwise (fun a b => a.key ≠ b.key)) :
    (insertEntry l e).Pairwise (fun a b => a.key ≠ b.key) := by
  rw [insertEntry]
  split
  · exact h
  · rename_i hany
    refine List.pairwise_append.mpr ⟨h, List.pairwise_singleton _ _, ?_⟩
    intro a ha b hb
    rw [List.mem_singleton.mp hb]
    intro hk
    exact hany (List.any_eq_true.mpr ⟨a, ha, by simp [hk]⟩)

theorem insertEntry_of_absent (l : List FileEntry) (e : FileEntry)
    (h : ∀ x ∈ l, x.key ≠ e.key) : insertEntry l e = l ++ [e] := by
  rw [insertEntry, if_neg]
  intro hany
  rcases List.any_eq_true.mp hany with ⟨x, hx, hk⟩
  exact h x hx (by simpa using hk)

theorem pairwise_key_map (l : List FileEntry) (f : FileEntry → FileEntry)
    (hf : ∀ x, (f x).key = x.key) (h : l.Pairwise (fun a b => a.key ≠ b.key)) :
    (l.map f).Pairwise (fun a b => a.key ≠ b.key) := by
  rw [List.pairwise_map]
  exact h.imp (by intro a b hab; rw [hf a, hf b]; exact hab)

theorem attachWaiter_none (k : FileId) (m : OpenMode) (wid : Nat) :
    ∀ l : List OpeningFileEntry, (∀ o ∈ l, o.file_key ≠ k) →
    attachWaiter k m wid l = none := by
  intro l
  induction l with
  | nil => intro _; rfl
  | cons o rest ih =>
    intro h
    rw [attachWaiter, if_neg, ih (fun x hx => h x (List.mem_cons_of_mem o hx))]
    · rfl
    · intro ⟨hk, _⟩
      exact h o (List.mem_cons_self o rest) hk

theorem attachWaiter_keys (k : FileId) (m : OpenMode) (wid : Nat) :
    ∀ (l l' : List OpeningFileEntry), attachWaiter k m wid l = some l' →
    openKeys l' = openKeys l := by
  intro l
  induction l with
  | nil => intro l' h; cases h
  | cons o rest ih =>
    intro l' h
    rw [attachWaiter] at h
    split at h
    · cases h
      simp [openKeys]
    · cases hrec : attachWaiter k m wid rest with
      | none => rw [hrec] at h; cases h
      | some rest' =>
        rw [hrec] at h
        cases h
        simp only [openKeys, List.map_cons]
        rw [show (rest'.map fun o => o.file_key) = openKeys rest' from rfl, ih rest' hrec]
        rfl

theorem removeOpening_sublist (k : FileId) (m : OpenMode) :
    ∀ l : List OpeningFileEntry, ((removeOpening k m l).1).Sublist l := by
  intro l
  induction l with
  | nil => simp [removeOpening]
  | cons o rest ih =>
    rw [removeOpening]
    split
    · exact List.sublist_cons_self o rest
    · exact ih.cons₂ o

theorem removeOpening_not_mem (k : FileId) (m : OpenMode) :
    ∀ l : List OpeningFileEntry, (openKeys l).Nodup →
    (∃ o ∈ l, o.file_key = k ∧ o.mode = m) →
    k ∉ openKeys (removeOpening k m l).1 := by
  intro l
  induction l with
  | nil => intro _ ⟨o, ho, _⟩; cases ho
  | cons o rest ih =>
    intro hnd ⟨w, hw, hwk, hwm⟩
    have hnd' : (openKeys rest).Nodup := (List.nodup_cons.mp hnd).2
    have hohd : o.file_key ∉ openKeys rest := (List.nodup_cons.mp hnd).1
    rw [removeOpening]
    by_cases hmatch : o.file_key = k ∧ o.mode = m
    · rw [if_pos hmatch]
      rw [← hmatch.1]
      exact hohd
    · rw [if_neg hmatch]
      rcases List.mem_cons.mp hw with h | h
      · subst h
        exact absurd ⟨hwk, hwm⟩ hmatch
      · have hok : o.file_key ≠ k := by
          intro hc
          rw [hc] at hohd
          exact hohd (by
            simp only [openKeys, List.mem_map]
            exact ⟨w, h, hwk⟩)
        simp only [openKeys, List.map_cons, List.mem_cons]
        intro hc
        rcases hc with hc | hc
        · exact hok hc.symm
        · exact ih hnd' ⟨w, h, hwk, hwm⟩ hc

theorem startMiss_files (p : Pool) (k : FileId) (m : OpenMode) :
    ((startMiss p k m).1).files = p.files := by
  simp only [startMiss]
  split <;> rfl

theorem startMiss_msize (p : Pool) (k : FileId) (m : OpenMode) :
    ((startMiss p k m).1).m_size = p.m_size := by
  simp only [startMiss]
  split <;> rfl

theorem openFileStart_msize (p : Pool) (k : FileId) (m : OpenMode) :
    ((openFileStart p k m).1).m_size = p.m_size := by
  simp only [openFileStart]
  split
  · split
    · rfl
    · rw [startMiss_msize]
  · rw [startMiss_msize]

theorem openFileStart_files_cases (p : Pool) (k : FileId) (m : OpenMode) :
    ((openFileStart p k m).1).files = p.files ∨
    (∃ e ∈ p.files, e.key = k ∧
      (((openFileStart p k m).1).files
          = p.files.filter (fun x => x.key ≠ k) ++ [{ e with last_use := p.clock }] ∨
       ((openFileStart p k m).1).files = p.files.filter (fun x => x.key ≠ k))) := by
  simp only [openFileStart]
  split
  · rename_i e hf
    have he : e ∈ p.files := List.mem_of_find?_eq_some hf
    have hk : e.key = k := by simpa using List.find?_some hf
    split
    · exact Or.inr ⟨e, he, hk, Or.inl rfl⟩
    · exact Or.inr ⟨e, he, hk, Or.inr (by rw [startMiss_files])⟩
  · exact Or.inl (by rw [startMiss_files])

theorem openFileFinish_msize (p : Pool) (k : FileId) (m : OpenMode) (osOk : Bool) (err : Nat) :
    ((openFileFinish p k m osOk err).1).m_size = p.m_size := by
  simp only [openFileFinish]
  split <;> rfl

theorem openFileFinish_files_cases (p : Pool) (k : FileId) (m : OpenMode) (osOk : Bool)
    (err : Nat) :
    ((openFileFinish p k m osOk err).1).files = p.files ∨
    ((openFileFinish p k m osOk err).1).files
      = evict_excess p.m_size (insertEntry p.files ⟨k, p.next_mapping, p.clock, 0, m⟩) := by
  simp only [openFileFinish]
  split
  · exact Or.inr rfl
  · exact Or.inl rfl

/-- The inductive heart of the size-and-uniqueness invariant: every
reachable quiescent state has unique keys and at most `m_size` cached
entries. -/
theorem reach_poolInv (p : Pool) (h : Reach p) : PoolInv p := by
  induction h with
  | init size => exact ⟨List.Pairwise.nil, by simp [initPool]⟩
  | start p k m _ ih =>
    obtain ⟨hpw, hlen⟩ := ih
    simp only [PoolInv, openFileStart_msize]
    rcases openFileStart_files_cases p k m with hc | ⟨e, he, hk, hc | hc⟩
    · rw [hc]; exact ⟨hpw, hlen⟩
    · rw [hc]
      constructor
      · refine List.pairwise_append.mpr
          ⟨hpw.sublist (List.filter_sublist _), List.pairwise_singleton _ _, ?_⟩
        intro a ha b hb
        rw [List.mem_singleton.mp hb]
        have hak : a.key ≠ k := by simpa using (List.mem_filter.mp ha).2
        show a.key ≠ e.key
        rw [hk]
        exact hak
      · have := length_filter_lt_of_mem (fun x => x.key ≠ k) p.files e he (by simp [hk])
        simp only [List.length_append, List.length_singleton]
        omega
    · rw [hc]
      refine ⟨hpw.sublist (List.filter_sublist _), ?_⟩
      have := List.length_filter_le (fun x => x.key ≠ k) p.files
      omega
  | finish p k m osOk err _ hex ih =>
    obtain ⟨hpw, hlen⟩ := ih
    simp only [PoolInv, openFileFinish_msize]
    rcases openFileFinish_files_cases p k m osOk err with hc | hc
    · rw [hc]; exact ⟨hpw, hlen⟩
    · rw [hc]
      exact ⟨(insertEntry_pairwise _ _ hpw).sublist (evict_excess_sublist _ _),
        evict_excess_length _ _⟩
  | releaseAll p _ _ => exact ⟨List.Pairwise.nil, by simp [release]⟩
  | releaseSt p st _ ih =>
    obtain ⟨hpw, hlen⟩ := ih
    refine ⟨hpw.sublist (List.filter_sublist _), ?_⟩
    have := List.length_filter_le (fun e => e.key.1 ≠ st) p.files
    simp only [releaseStorage]
    omega
  | releaseOne p st fi _ ih =>
    obtain ⟨hpw, hlen⟩ := ih
    refine ⟨hpw.sublist (List.filter_sublist _), ?_⟩
    have := List.length_filter_le (fun e => e.key ≠ (st, fi)) p.files
    simp only [releaseFile]
    omega
  | doResize p n _ ih =>
    exact ⟨ih.1.sublist (evict_excess_sublist _ _), evict_excess_length _ _⟩
  | closeOld p _ ih =>
    obtain ⟨hpw, hlen⟩ := ih
    refine ⟨hpw.sublist (List.drop_sublist 1 _), ?_⟩
    simp only [close_oldest, List.length_drop]
    omega
  | record p st fi pages _ ih =>
    obtain ⟨hpw, hlen⟩ := ih
    refine ⟨pairwise_key_map _ _ (by intro x; split <;> rfl) hpw, ?_⟩
    simpa [record_file_write] using hlen
  | flush p ok _ ih =>
    obtain ⟨hpw, hlen⟩ := ih
    simp only [PoolInv, flush_next_file]
    split
    · exact ⟨hpw, hlen⟩
    · split
      · refine ⟨pairwise_key_map _ _ (by intro x; split <;> rfl) hpw, ?_⟩
        simpa using hlen
      · exact ⟨hpw, hlen⟩
  | status p st _ ih => exact ih

theorem mem_openKeys (l : List OpeningFileEntry) (x : FileId) :
    x ∈ openKeys l ↔ ∃ o ∈ l, o.file_key = x := by
  simp [openKeys]

theorem startMiss_cases (p : Pool) (k : FileId) (m : OpenMode) :
    (startMiss p k m).1.files = p.files ∧
    (openKeys (startMiss p k m).1.opening_files = openKeys p.opening_files ∨
      ((startMiss p k m).1.opening_files = ⟨k, m, []⟩ :: p.opening_files ∧
       (startMiss p k m).2 = StartResult.doOpen)) := by
  cases hatt : attachWaiter k m p.next_waiter p.opening_files with
  | some ofs =>
    refine ⟨?_, Or.inl ?_⟩
    · simp only [startMiss, hatt]
    · simp only [startMiss, hatt]
      exact attachWaiter_keys k m p.next_waiter _ _ hatt
  | none =>
    refine ⟨?_, Or.inr ⟨?_, ?_⟩⟩ <;> simp only [startMiss, hatt]

theorem openFileStart_np_cases (p : Pool) (k : FileId) (m : OpenMode) :
    (∀ x ∈ ((openFileStart p k m).1).files, ∃ y ∈ p.files, x.key = y.key) ∧
    (openKeys ((openFileStart p k m).1).opening_files = openKeys p.opening_files ∨
      (((openFileStart p k m).1).opening_files = ⟨k, m, []⟩ :: p.opening_files ∧
       (openFileStart p k m).2 = StartResult.doOpen ∧
       ∀ x ∈ ((openFileStart p k m).1).files, x.key ≠ k)) := by
  cases hfind : p.files.find? (fun e => e.key = k) with
  | some e =>
    have he : e ∈ p.files := List.mem_of_find?_eq_some hfind
    by_cases hc : mode_covers e.mode m = true
    · have hfe : (openFileStart p k m).1.files
          = p.files.filter (fun x => x.key ≠ k) ++ [{ e with last_use := p.clock }] := by
        simp only [openFileStart, hfind]
        rw [if_pos hc]
      have hop : (openFileStart p k m).1.opening_files = p.opening_files := by
        simp only [openFileStart, hfind]
        rw [if_pos hc]
      refine ⟨?_, Or.inl (by rw [hop])⟩
      intro x hx
      rw [hfe] at hx
      rcases List.mem_append.mp hx with hx' | hx'
      · exact ⟨x, (List.mem_filter.mp hx').1, rfl⟩
      · rw [List.mem_singleton.mp hx']
        exact ⟨e, he, rfl⟩
    · have hfe : openFileStart p k m
          = startMiss { p with files := p.files.filter (fun x => x.key ≠ k) } k m := by
        simp only [openFileStart, hfind]
        rw [if_neg hc]
      obtain ⟨hsf, hso⟩ := startMiss_cases { p with files := p.files.filter (fun x => x.key ≠ k) } k m
      rw [hfe]
      constructor
      · intro x hx
        rw [hsf] at hx
        exact ⟨x, (List.mem_filter.mp hx).1, rfl⟩
      · rcases hso with h | ⟨h1, h2⟩
        · exact Or.inl h
        · refine Or.inr ⟨h1, h2, ?_⟩
          intro x hx
          rw [hsf] at hx
          simpa using (List.mem_filter.mp hx).2
  | none =>
    have hall : ∀ x ∈ p.files, x.key ≠ k := by
      intro x hx
      simpa using List.find?_eq_none.mp hfind x hx
    have hfe : openFileStart p k m = startMiss p k m := by
      simp only [openFileStart, hfind]
    obtain ⟨hsf, hso⟩ := startMiss_cases p k m
    rw [hfe]
    constructor
    · intro x hx
      rw [hsf] at hx
      exact ⟨x, hx, rfl⟩
    · rcases hso with h | ⟨h1, h2⟩
      · exact Or.inl h
      · refine Or.inr ⟨h1, h2, ?_⟩
        intro x hx
        rw [hsf] at hx
        exact hall x hx

theorem openFileFinish_opening (p : Pool) (k : FileId) (m : OpenMode) (osOk : Bool)
    (err : Nat) :
    ((openFileFinish p k m osOk err).1).opening_files = (removeOpening k m p.opening_files).1 := by
  simp only [openFileFinish]
  split <;> rfl

/-- The inductive heart of the no-simultaneous-presence invariant: in
executions without parallel opening entries for one key, no reachable
state caches a key that is also registered as being opened. -/
theorem reachNP_inv (p : Pool) (h : ReachNP p) : NPInv p := by
  induction h with
  | init size =>
    refine ⟨?_, by simp [initPool, openKeys]⟩
    intro e he
    simp [initPool] at he
  | start p k m _ hnp ih =>
    obtain ⟨hcross, hnd⟩ := ih
    obtain ⟨hfiles, hopening⟩ := openFileStart_np_cases p k m
    rcases hopening with heq | ⟨hreg, hdo, hnk⟩
    · constructor
      · intro x hx
        obtain ⟨y, hy, hxy⟩ := hfiles x hx
        rw [heq, hxy]
        exact hcross y hy
      · rw [heq]; exact hnd
    · have hnok : ∀ o ∈ p.opening_files, o.file_key ≠ k := hnp hdo
      constructor
      · intro x hx
        rw [hreg]
        simp only [openKeys, List.map_cons, List.mem_cons]
        push_neg
        refine ⟨hnk x hx, ?_⟩
        obtain ⟨y, hy, hxy⟩ := hfiles x hx
        rw [hxy]
        simpa [openKeys] using hcross y hy
      · rw [hreg]
        simp only [openKeys, List.map_cons]
        rw [List.nodup_cons]
        refine ⟨?_, hnd⟩
        simp only [List.mem_map]
        rintro ⟨o, ho, hok⟩
        exact hnok o ho hok
  | finish p k m osOk err _ hex ih =>
    obtain ⟨hcross, hnd⟩ := ih
    have hsubk : (openKeys (removeOpening k m p.opening_files).1).Sublist
        (openKeys p.opening_files) := (removeOpening_sublist k m p.opening_files).map _
    have hknot : k ∉ openKeys (removeOpening k m p.opening_files).1 :=
      removeOpening_not_mem k m _ hnd hex
    have hnd' : (openKeys (removeOpening k m p.opening_files).1).Nodup := hnd.sublist hsubk
    have hopen' := openFileFinish_opening p k m osOk err
    rcases openFileFinish_files_cases p k m osOk err with hc | hc
    · refine ⟨?_, by rw [hopen']; exact hnd'⟩
      intro x hx
      rw [hopen']
      rw [hc] at hx
      exact fun hmem => hcross x hx (hsubk.subset hmem)
    · refine ⟨?_, by rw [hopen']; exact hnd'⟩
      intro x hx
      rw [hopen']
      rw [hc] at hx
      have hx' := (evict_excess_sublist _ _).subset hx
      rcases mem_insertEntry _ _ _ hx' with hxl | hxe
      · exact fun hmem => hcross x hxl (hsubk.subset hmem)
      · rw [hxe]
        exact hknot
  | releaseAll p _ ih =>
    refine ⟨?_, ih.2⟩
    intro e he
    simp [release] at he
  | releaseSt p st _ ih =>
    exact ⟨fun x hx => ih.1 x (List.mem_filter.mp hx).1, ih.2⟩
  | releaseOne p st fi _ ih =>
    exact ⟨fun x hx => ih.1 x (List.mem_filter.mp hx).1, ih.2⟩
  | doResize p n _ ih =>
    exact ⟨fun x hx => ih.1 x ((evict_excess_sublist _ _).subset hx), ih.2⟩
  | closeOld p _ ih =>
    exact ⟨fun x hx => ih.1 x ((List.drop_sublist 1 _).subset hx), ih.2⟩
  | record p st fi pages _ ih =>
    refine ⟨?_, ih.2⟩
    intro x hx
    simp only [record_file_write, List.mem_map] at hx
    obtain ⟨y, hy, hxy⟩ := hx
    have hk : x.key = y.key := by rw [← hxy]; split <;> rfl
    rw [hk]
    exact ih.1 y hy
  | flush p ok _ ih =>
    simp only [NPInv, flush_next_file]
    split
    · exact ih
    · split
      · refine ⟨?_, ih.2⟩
        intro x hx
        simp only [List.mem_map] at hx
        obtain ⟨y, hy, hxy⟩ := hx
        have hk : x.key = y.key := by rw [← hxy]; split <;> rfl
        rw [hk]
        exact ih.1 y hy
      · exact ih
  | status p st _ ih => exact ih

theorem openFileStart_register (p : Pool) (k : FileId) (m : OpenMode)
    (hfind : p.files.find? (fun e => e.key = k) = none)
    (hno : ∀ o ∈ p.opening_files, o.file_key ≠ k) :
    openFileStart p k m
      = ({ p with opening_files := ⟨k, m, []⟩ :: p.opening_files }, StartResult.doOpen) := by
  simp only [openFileStart, hfind, startMiss, attachWaiter_none k m p.next_waiter _ hno]

theorem openFileStart_attach_head (p : Pool) (k : FileId) (m' m : OpenMode) (ws : List Nat)
    (rest : List OpeningFileEntry)
    (hfind : p.files.find? (fun e => e.key = k) = none)
    (hop : p.opening_files = ⟨k, m, ws⟩ :: rest)
    (hcov : mode_covers m m' = true) :
    openFileStart p k m'
      = ({ p with
            opening_files := ⟨k, m, ws ++ [p.next_waiter]⟩ :: rest
          , next_waiter := p.next_waiter + 1 }, StartResult.wait p.next_waiter) := by
  have hatt : attachWaiter k m' p.next_waiter p.opening_files
      = some (⟨k, m, ws ++ [p.next_waiter]⟩ :: rest) := by
    rw [hop, attachWaiter, if_pos ⟨rfl, hcov⟩]
  simp only [openFileStart, hfind, startMiss, hatt]

theorem removeOpening_head (k : FileId) (m : OpenMode) (ws : List Nat)
    (rest : List OpeningFileEntry) :
    removeOpening k m (⟨k, m, ws⟩ :: rest) = (rest, ws) := by
  rw [removeOpening, if_pos ⟨rfl, rfl⟩]

theorem openFileFinish_head_ok (p : Pool) (k : FileId) (m : OpenMode) (err : Nat)
    (ws : List Nat) (rest : List OpeningFileEntry)
    (hop : p.opening_files = ⟨k, m, ws⟩ :: rest) :
    openFileFinish p k m true err
      = ({ p with
            opening_files := rest
          , files := evict_excess p.m_size
              (insertEntry p.files ⟨k, p.next_mapping, p.clock, 0, m⟩)
          , waiter_results :=
              ws.map (fun w => (w, OpenResult.ok p.next_mapping)) ++ p.waiter_results
          , next_mapping := p.next_mapping + 1
          , os_open_count := p.os_open_count + 1
          , clock := p.clock + 1 }, .ok p.next_mapping) := by
  simp only [openFileFinish, hop, removeOpening_head]
  rfl

theorem openFileFinish_head_fail (p : Pool) (k : FileId) (m : OpenMode) (err : Nat)
    (ws : List Nat) (rest : List OpeningFileEntry)
    (hop : p.opening_files = ⟨k, m, ws⟩ :: rest) :
    openFileFinish p k m false err
      = ({ p with
            opening_files := rest
          , waiter_results :=
              ws.map (fun w => (w, OpenResult.fail err)) ++ p.waiter_results
          , os_open_count := p.os_open_count + 1
          , clock := p.clock + 1 }, .fail err) := by
  simp only [openFileFinish, hop, removeOpening_head]
  rfl

/-- While an in-flight open for `k` with mode `m` heads the registry and
`k` is uncached, every further `open_file(k)` first section whose request
`m` covers merely appends the caller as a waiter: the registry gains the
waiter ids, nothing else changes, and every call reports `wait`. -/
theorem startCalls_attach (k : FileId) (m : OpenMode) :
    ∀ (ms : List OpenMode) (p : Pool) (ws : List Nat) (rest : List OpeningFileEntry),
    p.files.find? (fun e => e.key = k) = none →
    (∀ m' ∈ ms, mode_covers m m' = true) →
    p.opening_files = ⟨k, m, ws⟩ :: rest →
    ∃ ws' : List Nat,
      (startCalls p k ms).1.opening_files = ⟨k, m, ws ++ ws'⟩ :: rest ∧
      (startCalls p k ms).1.files = p.files ∧
      (startCalls p k ms).1.next_mapping = p.next_mapping ∧
      (startCalls p k ms).1.os_open_count = p.os_open_count ∧
      (startCalls p k ms).1.waiter_results = p.waiter_results ∧
      (startCalls p k ms).1.m_size = p.m_size ∧
      (startCalls p k ms).2 = ws'.map StartResult.wait := by
  intro ms
  induction ms with
  | nil =>
    intro p ws rest hfind hcov hop
    exact ⟨[], by simp [startCalls, hop], rfl, rfl, rfl, rfl, rfl, rfl⟩
  | cons m' msrest ih =>
    intro p ws rest hfind hcov hop
    have hstep := openFileStart_attach_head p k m' m ws rest hfind hop
      (hcov m' (List.mem_cons_self m' msrest))
    obtain ⟨ws'', h1, h2, h3, h4, h5, h6, h7⟩ :=
      ih ((openFileStart p k m').1) (ws ++ [p.next_waiter]) rest
        (by rw [hstep]; exact hfind)
        (fun x hx => hcov x (List.mem_cons_of_mem m' hx))
        (by rw [hstep])
    refine ⟨p.next_waiter :: ws'', ?_, ?_, ?_, ?_, ?_, ?_, ?_⟩
    · show (startCalls (openFileStart p k m').1 k msrest).1.opening_files = _
      rw [h1]
      simp [List.append_assoc]
    · show (startCalls (openFileStart p k m').1 k msrest).1.files = _
      rw [h2, hstep]
    · show (startCalls (openFileStart p k m').1 k msrest).1.next_mapping = _
      rw [h3, hstep]
    · show (startCalls (openFileStart p k m').1 k msrest).1.os_open_count = _
      rw [h4, hstep]
    · show (startCalls (openFileStart p k m').1 k msrest).1.waiter_results = _
      rw [h5, hstep]
    · show (startCalls (openFileStart p k m').1 k msrest).1.m_size = _
      rw [h6, hstep]
    · show (openFileStart p k m').2
          :: (startCalls (openFileStart p k m').1 k msrest).2 = _
      rw [h7, hstep]
      rfl

theorem map_update_absent (k : FileId) (d : Nat) :
    ∀ l : List FileEntry, (∀ x ∈ l, ¬ x.key = k) →
    l.map (fun e => if e.key = k then { e with dirty_bytes := e.dirty_bytes + d } else e)
      = l := by
  intro l
  induction l with
  | nil => intro _; rfl
  | cons a t ih =>
    intro h
    rw [List.map_cons, if_neg (h a (List.mem_cons_self a t)),
      ih (fun x hx => h x (List.mem_cons_of_mem a hx))]

theorem record_file_write_absent (p : Pool) (st : StorageId) (fi : FileIndex) (pages : Nat)
    (h : p.files.find? (fun e => e.key = (st, fi)) = none) :
    record_file_write p st fi pages = p := by
  have hall : ∀ x ∈ p.files, ¬ x.key = (st, fi) := by
    intro x hx
    simpa using List.find?_eq_none.mp h x hx
  simp only [record_file_write]
  rw [map_update_absent (st, fi) (pages * page_size) p.files hall]

theorem find?_map_update (k : FileId) (d : Nat) :
    ∀ (l : List FileEntry) (e : FileEntry), l.find? (fun x => x.key = k) = some e →
    (l.map (fun x => if x.key = k then { x with dirty_bytes := x.dirty_bytes + d } else x)).find?
        (fun x => x.key = k)
      = some { e with dirty_bytes := e.dirty_bytes + d } := by
  intro l
  induction l with
  | nil => intro e h; cases h
  | cons a t ih =>
    intro e h
    by_cases hk : a.key = k
    · have hf : (a :: t).find? (fun x => x.key = k) = some a :=
        List.find?_cons_of_pos _ (by simpa using hk)
      rw [hf] at h
      cases h
      rw [List.map_cons, if_pos hk]
      exact List.find?_cons_of_pos _ (by simpa using hk)
    · have hf : (a :: t).find? (fun x => x.key = k) = t.find? (fun x => x.key = k) :=
        List.find?_cons_of_neg _ (by simpa using hk)
      rw [hf] at h
      rw [List.map_cons, if_neg hk, List.find?_cons_of_neg _ (by simpa using hk)]
      exact ih e h

theorem record_file_write_found (p : Pool) (st : StorageId) (fi : FileIndex) (pages : Nat)
    (e : FileEntry) (h : p.files.find? (fun x => x.key = (st, fi)) = some e) :
    (record_file_write p st fi pages).files.find? (fun x => x.key = (st, fi))
      = some { e with dirty_bytes := e.dirty_bytes + pages * page_size } := by
  simp only [record_file_write]
  exact find?_map_update (st, fi) (pages * page_size) p.files e h

theorem record_fold (st : StorageId) (fi : FileIndex) :
    ∀ (L : List Nat) (p : Pool) (e : FileEntry),
    p.files.find? (fun x => x.key = (st, fi)) = some e →
    ((L.foldl (fun q pages => record_file_write q st fi pages) p).files.find?
        (fun x => x.key = (st, fi)))
      = some { e with
          dirty_bytes := e.dirty_bytes + (L.map (fun n => n * page_size)).sum } := by
  intro L
  induction L with
  | nil =>
    intro p e h
    simpa using h
  | cons a L ih =>
    intro p e h
    have h2 := ih (record_file_write p st fi a) _
      (record_file_write_found p st fi a e h)
    rw [List.foldl_cons, h2]
    simp [Nat.add_assoc]

theorem flush_fold_mem : ∀ (l : List FileEntry) (acc : Option FileEntry) (e : FileEntry),
    l.foldl flushStep acc = some e → e ∈ l ∨ acc = some e := by
  intro l
  induction l with
  | nil => intro acc e h; exact Or.inr h
  | cons a t ih =>
    intro acc e h
    rw [List.foldl_cons] at h
    rcases ih (flushStep acc a) e h with hm | hs
    · exact Or.inl (List.mem_cons_of_mem a hm)
    · cases acc with
      | none =>
        simp only [flushStep] at hs
        split at hs
        · cases hs; exact Or.inl (List.mem_cons_self a t)
        · cases hs
      | some b =>
        simp only [flushStep] at hs
        split at hs
        · cases hs; exact Or.inl (List.mem_cons_self a t)
        · cases hs; exact Or.inr rfl

theorem flush_fold_pos : ∀ (l : List FileEntry) (acc : Option FileEntry),
    (∀ b, acc = some b → 0 < b.dirty_bytes) →
    ∀ e, l.foldl flushStep acc = some e → 0 < e.dirty_bytes := by
  intro l
  induction l with
  | nil => intro acc hacc e h; exact hacc e h
  | cons a t ih =>
    intro acc hacc e h
    rw [List.foldl_cons] at h
    refine ih (flushStep acc a) ?_ e h
    intro b hb
    cases acc with
    | none =>
      simp only [flushStep] at hb
      split at hb
      · cases hb; assumption
      · cases hb
    | some c =>
      have hc := hacc c rfl
      simp only [flushStep] at hb
      split at hb
      · cases hb; rename_i hlt; omega
      · cases hb; exact hc

theorem flush_fold_max : ∀ (l : List FileEntry) (acc : Option FileEntry) (e : FileEntry),
    l.foldl flushStep acc = some e →
    (∀ b, acc = some b → b.dirty_bytes ≤ e.dirty_bytes) ∧
    (∀ x ∈ l, x.dirty_bytes ≤ e.dirty_bytes) := by
  intro l
  induction l with
  | nil =>
    intro acc e h
    refine ⟨?_, by intro x hx; cases hx⟩
    intro b hb
    rw [hb] at h
    cases h
    exact Nat.le_refl _
  | cons a t ih =>
    intro acc e h
    rw [List.foldl_cons] at h
    obtain ⟨hacc, hall⟩ := ih (flushStep acc a) e h
    constructor
    · intro b hb
      cases acc with
      | none => cases hb
      | some c =>
        cases hb
        by_cases hlt : b.dirty_bytes < a.dirty_bytes
        · have := hacc a (by simp only [flushStep]; rw [if_pos hlt])
          omega
        · exact hacc b (by simp only [flushStep]; rw [if_neg hlt])
    · intro x hx
      rcases List.mem_cons.mp hx with hxa | hxt
      · subst hxa
        cases acc with
        | none =>
          by_cases h0 : 0 < x.dirty_bytes
          · exact hacc x (by simp only [flushStep]; rw [if_pos h0])
          · omega
        | some c =>
          by_cases hlt : c.dirty_bytes < x.dirty_bytes
          · exact hacc x (by simp only [flushStep]; rw [if_pos hlt])
          · have := hacc c (by simp only [flushStep]; rw [if_neg hlt])
            omega
      · exact hall x hxt

theorem flush_candidate_spec (l : List FileEntry) (e : FileEntry)
    (h : flush_candidate l = some e) :
    e ∈ l ∧ 0 < e.dirty_bytes ∧ ∀ x ∈ l, x.dirty_bytes ≤ e.dirty_bytes := by
  simp only [flush_candidate] at h
  have hm := flush_fold_mem l none e h
  have hp := flush_fold_pos l none (by intro b hb; cases hb) e h
  have hx := (flush_fold_max l none e h).2
  rcases hm with hm | hm
  · exact ⟨hm, hp, hx⟩
  · cases hm

/-! ## The claims -/

/-- C1: for every sequence of `open_file`, `release`, `release(storage)`,
`release(storage, file_index)` and `resize` operations (interleaved with
the remaining pool operations), at every quiescent point every key in the
`files_container` is unique and the number of cached entries is at most
`size_limit`; the transient `size_limit + 1` moment lies inside the
post-open critical section, which is atomic here, so it is not observable
at a quiescent point. -/
theorem C1_unique_keys_bounded_size (p : Pool) (h : Reach p) :
    p.files.Pairwise (fun a b => a.key ≠ b.key) ∧ p.files.length ≤ p.m_size :=
  reach_poolInv p h

theorem C1_unique_keys_bounded_size_witness :
    (initPool 40).files.Pairwise (fun a b => a.key ≠ b.key) ∧
    (initPool 40).files.length ≤ (initPool 40).m_size :=
  C1_unique_keys_bounded_size (initPool 40) (Reach.init 40)

/-- C3 counterexample: the claim fails on the parallel wider-open path.
Thread A registers a read-only open of `(0,0)`; thread B, requesting
read-write, starts a second opening entry for the same key; A's open then
succeeds and is inserted into the cache.  At the resulting quiescent
point the key `(0,0)` is present in the `files_container` and an opening
entry for `(0,0)` (B's) is still registered. -/
theorem C3_counterexample :
    Reach parPool3 ∧
    parPool3.files.any (fun e => e.key = (0, 0)) = true ∧
    parPool3.opening_files.any (fun o => o.file_key = (0, 0)) = true := by
  refine ⟨?_, by decide, by decide⟩
  exact Reach.finish parPool2 (0, 0) modeRead true 0
    (Reach.start parPool1 (0, 0) modeWrite
      (Reach.start (initPool 40) (0, 0) modeRead (Reach.init 40)))
    (by decide)

/-- C3 (amended): the registry entry is removed under the same atomic
step that inserts the cache entry, and at every quiescent point no key is
simultaneously present in the `files_container` and in the opening
registry — provided the execution never starts a second opening entry for
a key that already has one in flight.  On the parallel wider-mode path
the invariant can be violated (see the counterexample). -/
theorem C3_no_simultaneous_presence (p : Pool) (h : ReachNP p) :
    ∀ e ∈ p.files, ∀ o ∈ p.opening_files, e.key ≠ o.file_key := by
  intro e he o ho hc
  exact (reachNP_inv p h).1 e he (by rw [hc]; exact (mem_openKeys _ _).mpr ⟨o, ho, rfl⟩)

theorem C3_no_simultaneous_presence_witness :
    npPool2.files.all
      (fun e => npPool2.opening_files.all (fun o => e.key ≠ o.file_key)) = true := by
  have h := C3_no_simultaneous_presence npPool2
    (ReachNP.finish npPool1 (0, 0) modeWrite true 0
      (ReachNP.start (initPool 40) (0, 0) modeWrite (ReachNP.init 40) (by decide))
      (by decide))
  rw [List.all_eq_true]
  intro e he
  rw [List.all_eq_true]
  intro o ho
  exact decide_eq_true (h e he o ho)

/-- C2: K threads concurrently call `open_file` for the same absent key
`k` with compatible modes (the first caller's mode `m` covers every later
request).  The first caller registers the opening entry and reports
`doOpen`; every later caller attaches as a waiter (reports `wait`) and
performs no OS open; when the opener completes, exactly one OS open has
been performed in total, the opener returns the fresh mapping identity
(or the OS error), and every waiter's record holds that exact same
result. -/
theorem C2_concurrent_open_dedup (p : Pool) (k : FileId) (m : OpenMode)
    (ms : List OpenMode) (osOk : Bool) (err : Nat)
    (hfind : p.files.find? (fun e => e.key = k) = none)
    (hno : ∀ o ∈ p.opening_files, o.file_key ≠ k)
    (hcov : ∀ m' ∈ ms, mode_covers m m' = true) :
    (openFileStart p k m).2 = StartResult.doOpen ∧
    ∃ ws' : List Nat,
      (startCalls (openFileStart p k m).1 k ms).2 = ws'.map StartResult.wait ∧
      (startCalls (openFileStart p k m).1 k ms).1.os_open_count = p.os_open_count ∧
      (openFileFinish (startCalls (openFileStart p k m).1 k ms).1 k m osOk
          err).1.os_open_count = p.os_open_count + 1 ∧
      (openFileFinish (startCalls (openFileStart p k m).1 k ms).1 k m osOk err).2
        = (if osOk then OpenResult.ok p.next_mapping else OpenResult.fail err) ∧
      ∀ wid ∈ ws',
        ((openFileFinish (startCalls (openFileStart p k m).1 k ms).1 k m osOk
            err).1.waiter_results).lookup wid
          = some (if osOk then OpenResult.ok p.next_mapping else OpenResult.fail err) := by
  have hreg := openFileStart_register p k m hfind hno
  obtain ⟨ws', h1, h2, h3, h4, h5, h6, h7⟩ :=
    startCalls_attach k m ms (openFileStart p k m).1 [] p.opening_files
      (by rw [hreg]; exact hfind) hcov (by rw [hreg])
  rw [List.nil_append] at h1
  have hos : (startCalls (openFileStart p k m).1 k ms).1.os_open_count = p.os_open_count := by
    rw [h4, hreg]
  have hnm : (startCalls (openFileStart p k m).1 k ms).1.next_mapping = p.next_mapping := by
    rw [h3, hreg]
  refine ⟨by rw [hreg], ws', h7, hos, ?_⟩
  cases osOk with
  | true =>
    have hfin := openFileFinish_head_ok (startCalls (openFileStart p k m).1 k ms).1
      k m err ws' p.opening_files h1
    refine ⟨?_, ?_, ?_⟩
    · rw [hfin]
      show (startCalls (openFileStart p k m).1 k ms).1.os_open_count + 1 = _
      rw [hos]
    · rw [hfin]
      show OpenResult.ok (startCalls (openFileStart p k m).1 k ms).1.next_mapping = _
      rw [hnm]
      rfl
    · intro wid hwid
      rw [hfin]
      show ((ws'.map (fun w =>
          (w, OpenResult.ok (startCalls (openFileStart p k m).1 k ms).1.next_mapping)))
            ++ (startCalls (openFileStart p k m).1 k ms).1.waiter_results).lookup wid = _
      rw [hnm]
      exact lookup_map_append _ _ ws' wid hwid
  | false =>
    have hfin := openFileFinish_head_fail (startCalls (openFileStart p k m).1 k ms).1
      k m err ws' p.opening_files h1
    refine ⟨?_, ?_, ?_⟩
    · rw [hfin]
      show (startCalls (openFileStart p k m).1 k ms).1.os_open_count + 1 = _
      rw [hos]
    · rw [hfin]
      rfl
    · intro wid hwid
      rw [hfin]
      exact lookup_map_append _ _ ws' wid hwid

theorem C2_concurrent_open_dedup_witness :
    (openFileStart (initPool 40) (0, 0) modeWrite).2 = StartResult.doOpen ∧
    ∃ ws' : List Nat,
      (startCalls (openFileStart (initPool 40) (0, 0) modeWrite).1 (0, 0)
          [modeRead, modeWrite]).2 = ws'.map StartResult.wait ∧
      (startCalls (openFileStart (initPool 40) (0, 0) modeWrite).1 (0, 0)
          [modeRead, modeWrite]).1.os_open_count = (initPool 40).os_open_count ∧
      (openFileFinish (startCalls (openFileStart (initPool 40) (0, 0) modeWrite).1 (0, 0)
          [modeRead, modeWrite]).1 (0, 0) modeWrite true 7).1.os_open_count
        = (initPool 40).os_open_count + 1 ∧
      (openFileFinish (startCalls (openFileStart (initPool 40) (0, 0) modeWrite).1 (0, 0)
          [modeRead, modeWrite]).1 (0, 0) modeWrite true 7).2
        = (if true then OpenResult.ok (initPool 40).next_mapping else OpenResult.fail 7) ∧
      ∀ wid ∈ ws',
        ((openFileFinish (startCalls (openFileStart (initPool 40) (0, 0) modeWrite).1 (0, 0)
            [modeRead, modeWrite]).1 (0, 0) modeWrite true 7).1.waiter_results).lookup wid
          = some (if true then OpenResult.ok (initPool 40).next_mapping
              else OpenResult.fail 7) :=
  C2_concurrent_open_dedup (initPool 40) (0, 0) modeWrite [modeRead, modeWrite] true 7
    (by decide) (by decide) (by decide)

theorem startMiss_register (p : Pool) (k : FileId) (m : OpenMode)
    (hno : ∀ o ∈ p.opening_files, o.file_key ≠ k) :
    startMiss p k m
      = ({ p with opening_files := ⟨k, m, []⟩ :: p.opening_files }, StartResult.doOpen) := by
  simp only [startMiss, attachWaiter_none k m p.next_waiter _ hno]

theorem open_file_doOpen (p : Pool) (k : FileId) (m : OpenMode) (osOk : Bool) (err : Nat)
    (h : (openFileStart p k m).2 = StartResult.doOpen) :
    open_file p k m osOk err
      = ((openFileFinish (openFileStart p k m).1 k m osOk err).1,
        match (openFileFinish (openFileStart p k m).1 k m osOk err).2 with
        | OpenResult.ok mp => OpenOutcome.view mp
        | OpenResult.fail e => OpenOutcome.fail e) := by
  cases hs : openFileStart p k m with
  | mk p1 r =>
    rw [hs] at h
    simp only at h
    subst h
    simp only [open_file, hs]
    cases hf : openFileFinish p1 k m osOk err with
    | mk p2 res =>
      cases res <;> rfl

theorem flush_next_file_ok (p : Pool) (e : FileEntry)
    (hsel : flush_candidate p.files = some e) :
    flush_next_file p true
      = ({ p with files := p.files.map (fun x =>
            if x.key = e.key then { x with dirty_bytes := 0 } else x) }, some e.key) := by
  simp only [flush_next_file, hsel]
  rfl

theorem flush_next_file_fail (p : Pool) (e : FileEntry)
    (hsel : flush_candidate p.files = some e) :
    flush_next_file p false = (p, some e.key) := by
  simp only [flush_next_file, hsel]
  rfl

/-- C4: `record_file_write` on an absent key changes nothing; on a cached
entry a single call adds `pages × page_size` to the entry's
`dirty_bytes`; and a sequence of calls with page counts `L` and no
intervening flush or eviction brings a freshly inserted entry's counter
to exactly the total number of bytes recorded. -/
theorem C4_dirty_bytes_accumulation :
    (∀ (p : Pool) (st : StorageId) (fi : FileIndex) (pages : Nat),
      p.files.find? (fun e => e.key = (st, fi)) = none →
      record_file_write p st fi pages = p) ∧
    (∀ (p : Pool) (st : StorageId) (fi : FileIndex) (pages : Nat) (e : FileEntry),
      p.files.find? (fun x => x.key = (st, fi)) = some e →
      (record_file_write p st fi pages).files.find? (fun x => x.key = (st, fi))
        = some { e with dirty_bytes := e.dirty_bytes + pages * page_size }) ∧
    (∀ (p : Pool) (st : StorageId) (fi : FileIndex) (L : List Nat) (e : FileEntry),
      p.files.find? (fun x => x.key = (st, fi)) = some e →
      e.dirty_bytes = 0 →
      ((L.foldl (fun q pages => record_file_write q st fi pages) p).files.find?
          (fun x => x.key = (st, fi)))
        = some { e with dirty_bytes := (L.map (fun n => n * page_size)).sum }) := by
  refine ⟨record_file_write_absent, record_file_write_found, ?_⟩
  intro p st fi L e h h0
  rw [record_fold st fi L p e h, h0]
  simp

theorem C4_dirty_bytes_accumulation_witness :
    record_file_write onePool 5 5 3 = onePool ∧
    (record_file_write onePool 0 0 3).files.find? (fun x => x.key = (0, 0))
      = some ⟨(0, 0), 0, 0, 0 + 3 * page_size, modeWrite⟩ ∧
    (([2, 3] : List Nat).foldl
        (fun q pages => record_file_write q 0 0 pages) onePool).files.find?
        (fun x => x.key = (0, 0))
      = some ⟨(0, 0), 0, 0, (([2, 3] : List Nat).map (fun n => n * page_size)).sum,
          modeWrite⟩ :=
  ⟨C4_dirty_bytes_accumulation.1 onePool 5 5 3 (by decide),
   C4_dirty_bytes_accumulation.2.1 onePool 0 0 3 ⟨(0, 0), 0, 0, 0, modeWrite⟩ rfl,
   C4_dirty_bytes_accumulation.2.2 onePool 0 0 [2, 3] ⟨(0, 0), 0, 0, 0, modeWrite⟩ rfl rfl⟩

/-- C5: a cached entry whose mode lacks the write bit is insufficient for
a write request: `open_file` removes it in its first critical section and
proceeds as a miss (registering an opening entry, hence a fresh OS open
in the wider mode); after the successful call the `files_container`
holds exactly one entry for that key, carrying the requested
write-enabled mode and the fresh mapping. -/
theorem C5_mode_upgrade (p : Pool) (k : FileId) (m : OpenMode) (e : FileEntry) (err : Nat)
    (hfind : p.files.find? (fun x => x.key = k) = some e)
    (hcached : e.mode.write = false)
    (hreq : m.write = true)
    (hno : ∀ o ∈ p.opening_files, o.file_key ≠ k)
    (hlen : p.files.length ≤ p.m_size) :
    (openFileStart p k m).1.files = p.files.filter (fun x => x.key ≠ k) ∧
    (openFileStart p k m).2 = StartResult.doOpen ∧
    (open_file p k m true err).2 = OpenOutcome.view p.next_mapping ∧
    (open_file p k m true err).1.files.filter (fun x => x.key = k)
      = [⟨k, p.next_mapping, p.clock, 0, m⟩] := by
  have hek : e.key = k := by simpa using List.find?_some hfind
  have hmem : e ∈ p.files := List.mem_of_find?_eq_some hfind
  have hcov : ¬ (mode_covers e.mode m = true) := by simp [mode_covers, hcached, hreq]
  have hq : openFileStart p k m
      = startMiss { p with files := p.files.filter (fun x => x.key ≠ k) } k m := by
    simp only [openFileStart, hfind]
    rw [if_neg hcov]
  have hstart := hq.trans (startMiss_register _ k m hno)
  have hdo : (openFileStart p k m).2 = StartResult.doOpen := by rw [hstart]
  have hfiles1 : (openFileStart p k m).1.files = p.files.filter (fun x => x.key ≠ k) := by
    rw [hstart]
  have hop1 : (openFileStart p k m).1.opening_files
      = ⟨k, m, []⟩ :: p.opening_files := by rw [hstart]
  have hfin := openFileFinish_head_ok (openFileStart p k m).1 k m err [] p.opening_files hop1
  have hcomp := open_file_doOpen p k m true err hdo
  have habs : ∀ x ∈ p.files.filter (fun x => x.key ≠ k),
      x.key ≠ (⟨k, p.next_mapping, p.clock, 0, m⟩ : FileEntry).key := by
    intro x hx
    simpa using (List.mem_filter.mp hx).2
  have hflen : (p.files.filter (fun x => x.key ≠ k)).length < p.files.length :=
    length_filter_lt_of_mem _ _ e hmem (by simp [hek])
  have hins : insertEntry (p.files.filter (fun x => x.key ≠ k))
        ⟨k, p.next_mapping, p.clock, 0, m⟩
      = p.files.filter (fun x => x.key ≠ k) ++ [⟨k, p.next_mapping, p.clock, 0, m⟩] :=
    insertEntry_of_absent _ _ habs
  have hev : evict_excess p.m_size (p.files.filter (fun x => x.key ≠ k)
        ++ [⟨k, p.next_mapping, p.clock, 0, m⟩])
      = p.files.filter (fun x => x.key ≠ k) ++ [⟨k, p.next_mapping, p.clock, 0, m⟩] := by
    apply evict_excess_of_le
    rw [List.length_append]
    simp only [List.length_singleton]
    omega
  refine ⟨hfiles1, hdo, ?_, ?_⟩
  · rw [hcomp]
    show (match (openFileFinish (openFileStart p k m).1 k m true err).2 with
      | OpenResult.ok mp => OpenOutcome.view mp
      | OpenResult.fail e => OpenOutcome.fail e) = _
    rw [hfin]
    show OpenOutcome.view (openFileStart p k m).1.next_mapping = _
    rw [hstart]
  · rw [hcomp]
    show ((openFileFinish (openFileStart p k m).1 k m true err).1.files.filter
      (fun x => x.key = k)) = _
    rw [hfin]
    show (evict_excess (openFileStart p k m).1.m_size
        (insertEntry (openFileStart p k m).1.files
          ⟨k, (openFileStart p k m).1.next_mapping, (openFileStart p k m).1.clock, 0, m⟩)).filter
        (fun x => x.key = k) = _
    rw [openFileStart_msize, hfiles1]
    have hnm : (openFileStart p k m).1.next_mapping = p.next_mapping := by rw [hstart]
    have hck : (openFileStart p k m).1.clock = p.clock := by rw [hstart]
    rw [hnm, hck, hins, hev, List.filter_append]
    have h1 : (p.files.filter (fun x => x.key ≠ k)).filter (fun x => x.key = k) = [] := by
      rw [List.filter_eq_nil_iff]
      intro a ha
      simpa using (List.mem_filter.mp ha).2
    rw [h1]
    simp

theorem C5_mode_upgrade_witness :
    (openFileStart readPool (0, 0) modeWrite).1.files
      = readPool.files.filter (fun x => x.key ≠ (0, 0)) ∧
    (openFileStart readPool (0, 0) modeWrite).2 = StartResult.doOpen ∧
    (open_file readPool (0, 0) modeWrite true 9).2
      = OpenOutcome.view readPool.next_mapping ∧
    (open_file readPool (0, 0) modeWrite true 9).1.files.filter (fun x => x.key = (0, 0))
      = [⟨(0, 0), readPool.next_mapping, readPool.clock, 0, modeWrite⟩] :=
  C5_mode_upgrade readPool (0, 0) modeWrite ⟨(0, 0), 0, 0, 0, modeRead⟩ 9
    rfl rfl rfl (by decide) (by decide)

/-- C6: a waiter attached to an in-flight open that succeeds receives, in
its own waiter record, the exact mapping the opener created and inserted
— delivered directly, not re-fetched from the index: the cached entry
carries the same mapping identity, and with `size_limit = 0` the entry is
already evicted when the completion step ends, yet the waiter still holds
the mapping. -/
theorem C6_waiter_gets_exact_mapping (p : Pool) (k : FileId) (m : OpenMode)
    (ws : List Nat) (wid : Nat) (err : Nat)
    (hreg : p.opening_files = [⟨k, m, ws⟩]) (hw : wid ∈ ws)
    (hfind : p.files.find? (fun x => x.key = k) = none) :
    (openFileFinish p k m true err).2 = OpenResult.ok p.next_mapping ∧
    ((openFileFinish p k m true err).1.waiter_results).lookup wid
      = some (OpenResult.ok p.next_mapping) ∧
    (∀ x ∈ (openFileFinish p k m true err).1.files, x.key = k →
      x.mapping = p.next_mapping) ∧
    (p.m_size = 0 → (openFileFinish p k m true err).1.files = []) := by
  have hfin := openFileFinish_head_ok p k m err ws [] hreg
  have hall : ∀ x ∈ p.files, ¬ x.key = k := by
    intro x hx
    simpa using List.find?_eq_none.mp hfind x hx
  refine ⟨by rw [hfin], ?_, ?_, ?_⟩
  · rw [hfin]
    exact lookup_map_append _ _ ws wid hw
  · intro x hx hxk
    rw [hfin] at hx
    have hx' := (evict_excess_sublist _ _).subset hx
    rcases mem_insertEntry _ _ _ hx' with hxl | hxe
    · exact absurd hxk (hall x hxl)
    · rw [hxe]
  · intro h0
    rw [hfin]
    show evict_excess p.m_size _ = []
    rw [h0, evict_excess_zero]

theorem C6_waiter_gets_exact_mapping_witness :
    (openFileFinish zeroPool (0, 0) modeRead true 4).2
      = OpenResult.ok zeroPool.next_mapping ∧
    ((openFileFinish zeroPool (0, 0) modeRead true 4).1.waiter_results).lookup 3
      = some (OpenResult.ok zeroPool.next_mapping) ∧
    (∀ x ∈ (openFileFinish zeroPool (0, 0) modeRead true 4).1.files, x.key = (0, 0) →
      x.mapping = zeroPool.next_mapping) ∧
    (zeroPool.m_size = 0 → (openFileFinish zeroPool (0, 0) modeRead true 4).1.files = []) :=
  C6_waiter_gets_exact_mapping zeroPool (0, 0) modeRead [3] 3 4 rfl (by decide) rfl

/-- C7: when the OS open fails, no cache entry is created (the
`files_container` is unchanged), the opening entry is removed, the opener
reports the error, every attached waiter receives that exact error, and a
subsequent `open_file` for the same key starts fresh — it registers a new
opening entry and performs a new OS open — rather than observing a cached
error. -/
theorem C7_open_failure_not_cached (p : Pool) (k : FileId) (m m2 : OpenMode)
    (ws : List Nat) (err : Nat)
    (hreg : p.opening_files = [⟨k, m, ws⟩])
    (hfind : p.files.find? (fun x => x.key = k) = none) :
    (openFileFinish p k m false err).1.files = p.files ∧
    (openFileFinish p k m false err).1.opening_files = [] ∧
    (openFileFinish p k m false err).2 = OpenResult.fail err ∧
    (∀ wid ∈ ws, ((openFileFinish p k m false err).1.waiter_results).lookup wid
      = some (OpenResult.fail err)) ∧
    (openFileStart (openFileFinish p k m false err).1 k m2).2 = StartResult.doOpen ∧
    (openFileStart (openFileFinish p k m false err).1 k m2).1.opening_files
      = [⟨k, m2, []⟩] ∧
    (openFileFinish (openFileStart (openFileFinish p k m false err).1 k m2).1 k m2
        true 0).1.os_open_count = p.os_open_count + 2 := by
  have hfin := openFileFinish_head_fail p k m err ws [] hreg
  have hfiles1 : (openFileFinish p k m false err).1.files = p.files := by rw [hfin]
  have hop1 : (openFileFinish p k m false err).1.opening_files = [] := by rw [hfin]
  have hreg2 := openFileStart_register (openFileFinish p k m false err).1 k m2
    (by rw [hfiles1]; exact hfind) (by rw [hop1]; intro o ho; cases ho)
  have hP2op : (openFileStart (openFileFinish p k m false err).1 k m2).1.opening_files
      = ⟨k, m2, []⟩ :: ([] : List OpeningFileEntry) := by
    rw [hreg2]
    show (⟨k, m2, []⟩ : OpeningFileEntry) :: (openFileFinish p k m false err).1.opening_files
      = _
    rw [hop1]
  refine ⟨hfiles1, hop1, by rw [hfin], ?_, by rw [hreg2], hP2op, ?_⟩
  · intro wid hwid
    rw [hfin]
    exact lookup_map_append _ _ ws wid hwid
  · have hfin2 := openFileFinish_head_ok
      (openFileStart (openFileFinish p k m false err).1 k m2).1 k m2 0 [] [] hP2op
    rw [hfin2]
    show (openFileStart (openFileFinish p k m false err).1 k m2).1.os_open_count + 1 = _
    rw [hreg2]
    show (openFileFinish p k m false err).1.os_open_count + 1 = _
    rw [hfin]

theorem C7_open_failure_not_cached_witness :
    (openFileFinish failPool (2, 3) modeRead false 13).1.files = failPool.files ∧
    (openFileFinish failPool (2, 3) modeRead false 13).1.opening_files = [] ∧
    (openFileFinish failPool (2, 3) modeRead false 13).2 = OpenResult.fail 13 ∧
    (∀ wid ∈ ([11] : List Nat),
      ((openFileFinish failPool (2, 3) modeRead false 13).1.waiter_results).lookup wid
        = some (OpenResult.fail 13)) ∧
    (openFileStart (openFileFinish failPool (2, 3) modeRead false 13).1 (2, 3)
        modeWrite).2 = StartResult.doOpen ∧
    (openFileStart (openFileFinish failPool (2, 3) modeRead false 13).1 (2, 3)
        modeWrite).1.opening_files = [⟨(2, 3), modeWrite, []⟩] ∧
    (openFileFinish (openFileStart (openFileFinish failPool (2, 3) modeRead false 13).1
        (2, 3) modeWrite).1 (2, 3) modeWrite true 0).1.os_open_count
      = failPool.os_open_count + 2 :=
  C7_open_failure_not_cached failPool (2, 3) modeRead modeWrite [11] 13 rfl rfl

/-- C8: whenever `flush_next_file` performs a flush (the dirty-bytes
index yields a candidate), the selected entry is cached, its
`dirty_bytes` is strictly positive and maximal among all cached entries;
if the flush succeeds, every cached entry with the selected key has its
counter reset to 0; if the flush fails, the pool is left unchanged, so
the file remains eligible for a later attempt. -/
theorem C8_flush_selects_max_dirty (p : Pool) (e : FileEntry) (flushOk : Bool)
    (hsel : flush_candidate p.files = some e) :
    e ∈ p.files ∧ 0 < e.dirty_bytes ∧
    (∀ x ∈ p.files, x.dirty_bytes ≤ e.dirty_bytes) ∧
    (flush_next_file p flushOk).2 = some e.key ∧
    (flushOk = true → ∀ x ∈ (flush_next_file p true).1.files,
      x.key = e.key → x.dirty_bytes = 0) ∧
    (flushOk = false → (flush_next_file p false).1 = p) := by
  obtain ⟨hm, hp, hmax⟩ := flush_candidate_spec p.files e hsel
  refine ⟨hm, hp, hmax, ?_, ?_, ?_⟩
  · cases flushOk with
    | true => rw [flush_next_file_ok p e hsel]
    | false => rw [flush_next_file_fail p e hsel]
  · intro _ x hx hxk
    rw [flush_next_file_ok p e hsel] at hx
    simp only [List.mem_map] at hx
    obtain ⟨y, hy, hxy⟩ := hx
    by_cases hyk : y.key = e.key
    · rw [← hxy, if_pos hyk]
    · rw [← hxy, if_neg hyk] at hxk ⊢
      exact absurd hxk hyk
  · intro _
    rw [flush_next_file_fail p e hsel]

theorem C8_flush_selects_max_dirty_witness :
    (⟨(0, 1), 1, 1, 50, modeWrite⟩ : FileEntry) ∈ dirtyPool.files ∧
    0 < (⟨(0, 1), 1, 1, 50, modeWrite⟩ : FileEntry).dirty_bytes ∧
    (∀ x ∈ dirtyPool.files,
      x.dirty_bytes ≤ (⟨(0, 1), 1, 1, 50, modeWrite⟩ : FileEntry).dirty_bytes) ∧
    (flush_next_file dirtyPool true).2
      = some (⟨(0, 1), 1, 1, 50, modeWrite⟩ : FileEntry).key ∧
    (true = true → ∀ x ∈ (flush_next_file dirtyPool true).1.files,
      x.key = (⟨(0, 1), 1, 1, 50, modeWrite⟩ : FileEntry).key → x.dirty_bytes = 0) ∧
    (true = false → (flush_next_file dirtyPool false).1 = dirtyPool) :=
  C8_flush_selects_max_dirty dirtyPool ⟨(0, 1), 1, 1, 50, modeWrite⟩ true (by decide)

/-- C9: `size_limit = 0` is a valid degenerate mode: a successful
`open_file` still returns a view of the freshly created mapping, yet
afterwards the `files_container` is empty — the inserted entry is
evicted within the same completion step — and a waiter attached to an
in-flight open still receives the mapping even though the entry is
already gone when the completion step ends. -/
theorem C9_size_limit_zero (p q : Pool) (k k2 : FileId) (m m2 : OpenMode)
    (ws : List Nat) (wid : Nat) (err : Nat)
    (hreach : Reach p) (hzero : p.m_size = 0)
    (hno : ∀ o ∈ p.opening_files, o.file_key ≠ k)
    (hq0 : q.m_size = 0) (hqreg : q.opening_files = [⟨k2, m2, ws⟩]) (hw : wid ∈ ws) :
    (open_file p k m true err).2 = OpenOutcome.view p.next_mapping ∧
    (open_file p k m true err).1.files = [] ∧
    ((openFileFinish q k2 m2 true err).1.waiter_results).lookup wid
      = some (OpenResult.ok q.next_mapping) ∧
    (openFileFinish q k2 m2 true err).1.files = [] := by
  have hemp : p.files = [] := by
    have hlen := (reach_poolInv p hreach).2
    rw [hzero] at hlen
    exact List.eq_nil_of_length_eq_zero (Nat.le_zero.mp hlen)
  have hfind : p.files.find? (fun e => e.key = k) = none := by rw [hemp]; rfl
  have hreg := openFileStart_register p k m hfind hno
  have hdo : (openFileStart p k m).2 = StartResult.doOpen := by rw [hreg]
  have hop1 : (openFileStart p k m).1.opening_files
      = ⟨k, m, []⟩ :: p.opening_files := by rw [hreg]
  have hfin := openFileFinish_head_ok (openFileStart p k m).1 k m err [] p.opening_files hop1
  have hcomp := open_file_doOpen p k m true err hdo
  have hfin2 := openFileFinish_head_ok q k2 m2 err ws [] hqreg
  refine ⟨?_, ?_, ?_, ?_⟩
  · rw [hcomp]
    show (match (openFileFinish (openFileStart p k m).1 k m true err).2 with
      | OpenResult.ok mp => OpenOutcome.view mp
      | OpenResult.fail e => OpenOutcome.fail e) = _
    rw [hfin]
    show OpenOutcome.view (openFileStart p k m).1.next_mapping = _
    rw [hreg]
  · rw [hcomp]
    show (openFileFinish (openFileStart p k m).1 k m true err).1.files = []
    rw [hfin]
    show evict_excess (openFileStart p k m).1.m_size _ = []
    rw [openFileStart_msize, hzero, evict_excess_zero]
  · rw [hfin2]
    exact lookup_map_append _ _ ws wid hw
  · rw [hfin2]
    show evict_excess q.m_size _ = []
    rw [hq0, evict_excess_zero]

theorem C9_size_limit_zero_witness :
    (open_file (initPool 0) (0, 0) modeWrite true 2).2
      = OpenOutcome.view (initPool 0).next_mapping ∧
    (open_file (initPool 0) (0, 0) modeWrite true 2).1.files = [] ∧
    ((openFileFinish zeroPool (0, 0) modeRead true 2).1.waiter_results).lookup 3
      = some (OpenResult.ok zeroPool.next_mapping) ∧
    (openFileFinish zeroPool (0, 0) modeRead true 2).1.files = [] :=
  C9_size_limit_zero (initPool 0) zeroPool (0, 0) (0, 0) modeWrite modeRead [3] 3 2
    (Reach.init 0) rfl (by decide) rfl rfl (by decide)

/-- C10: `get_status` is a pure observer, matching its `const` qualifier
in the header: it returns the pool unchanged — the `files_container`
(hence every entry's `last_use`, LRU position, `mode` and `dirty_bytes`)
is identical before and after the call — together with the snapshot of
the matching entries; recency is not refreshed. -/
theorem C10_get_status_frame (p : Pool) (st : StorageId) :
    (get_status p st).1 = p ∧
    (get_status p st).1.files = p.files ∧
    (get_status p st).2 = statusSnapshot st p.files :=
  ⟨rfl, rfl, rfl⟩

end FileViewPool
